import Mathlib

/-!
# Verification of the Monte Carlo Black-Scholes pricing example

Shallow embedding of the two pricing functions of
`cookbook/docs/Performance_gottagofaster.ipynb` (`mcBScall_loop`,
`mcBScall_vect`, and their `@jit`-decorated redefinitions).  Floating-point
numbers are modelled as real numbers; the NumPy global random stream is
modelled as an oracle `w : ℕ → ℝ` giving the successive standard-normal
draws.  A result of `none` models a run that produces no real-number price:
division of the payoff sum by `n = 0` (NaN in the source) or a request for a
negative-length sample array (`ValueError` from `np.random.standard_normal`).
-/

set_option linter.unusedVariables false

namespace Cookbook

noncomputable section

/-- The geometric-Brownian-motion terminal value computed inside both source
functions: `ST = S*np.exp((r-0.5*sgm**2)*T+sgm*np.sqrt(T)*w)`. -/
def terminalValue (S sgm r T wi : ℝ) : ℝ :=
  S * Real.exp ((r - 0.5 * sgm ^ 2) * T + sgm * Real.sqrt T * wi)

/-- The per-path payoff of the source: `payoff = ST-K; payoff = payoff*(payoff>0)`
(the comparison result `payoff>0` is multiplied as 1 or 0). -/
def clampedPayoff (S K sgm r T wi : ℝ) : ℝ :=
  let payoff := terminalValue S sgm r T wi - K
  payoff * (if payoff > 0 then 1 else 0)

/-- The accumulator of the `for i in range(n)` loop of `mcBScall_loop`:
starts at `0.0` and adds the clamped payoff of draw `w i` at each iteration. -/
def payoff_sim (S K sgm r T : ℝ) (w : ℕ → ℝ) (n : ℕ) : ℝ :=
  (List.range n).foldl (fun acc i => acc + clampedPayoff S K sgm r T (w i)) 0.0

/-- `mcBScall_loop(S,K,sgm,r,T,n)` of the source.  `range(n)` is empty for
`n ≤ 0`, so `n.toNat` iterations run; the final statement
`price = np.exp(-r*T) * payoff_sim / n` divides by `n`, which for `n = 0`
produces no real price (modelled as `none`). -/
def mcBScall_loop (S K sgm r T : ℝ) (n : ℤ) (w : ℕ → ℝ) : Option ℝ :=
  if n = 0 then none
  else some (Real.exp (-r * T) * payoff_sim S K sgm r T w n.toNat / (n : ℝ))

/-- `mcBScall_vect(S,K,sgm,r,T,n)` of the source: draws the array
`w = np.random.standard_normal(n)` (the first `n` values of the stream;
raises for `n < 0`), applies the payoff arithmetic array-wise and returns
`np.exp(-r*T)*np.average(payoff)`; the average of an empty array (`n = 0`)
is no real number, so `n ≤ 0` is modelled as `none`. -/
def mcBScall_vect (S K sgm r T : ℝ) (n : ℤ) (w : ℕ → ℝ) : Option ℝ :=
  if n ≤ 0 then none
  else
    let ws := (List.range n.toNat).map w
    let payoff := ws.map (clampedPayoff S K sgm r T)
    some (Real.exp (-r * T) * (payoff.sum / (payoff.length : ℝ)))

/-- The `@jit(nopython=True)` redefinition of `mcBScall_loop` has the very
same Python body; the decorator only changes the execution backend, so its
mathematical content is the same function. -/
def mcBScall_loop_jit : ℝ → ℝ → ℝ → ℝ → ℝ → ℤ → (ℕ → ℝ) → Option ℝ :=
  mcBScall_loop

/-- The `@jit(nopython=True)` redefinition of `mcBScall_vect` uses `np.mean`
in place of `np.average`; both compute the arithmetic mean, so its
mathematical content is the same function. -/
def mcBScall_vect_jit : ℝ → ℝ → ℝ → ℝ → ℝ → ℤ → (ℕ → ℝ) → Option ℝ :=
  mcBScall_vect

/-- Split a list into consecutive chunks of size `c` (the last chunk may be
smaller); used to state that per-chunk accumulation of payoff sums does not
change the total. -/
def splitChunks {α : Type} : ℕ → List α → List (List α)
  | _, [] => []
  | 0, l => [l]
  | c + 1, a :: l => ((a :: l).take (c + 1)) :: splitChunks (c + 1) ((a :: l).drop (c + 1))
termination_by _ l => l.length
decreasing_by simp; omega

/-- Per-chunk accumulation of the payoff sums of paths `0, …, n-1`,
with chunk size `c`. -/
def chunkedPayoffSum (S K sgm r T : ℝ) (w : ℕ → ℝ) (n c : ℕ) : ℝ :=
  (splitChunks c (List.range n)).foldl
    (fun acc chunk => acc + (chunk.map (fun i => clampedPayoff S K sgm r T (w i))).sum) 0

/-- Discounted mean of the chunk-accumulated payoff sum. -/
def chunkedPrice (S K sgm r T : ℝ) (w : ℕ → ℝ) (n : ℤ) (c : ℕ) : ℝ :=
  Real.exp (-r * T) * chunkedPayoffSum S K sgm r T w n.toNat c / (n : ℝ)

/-- Big-step execution of the `for` loop of `mcBScall_loop` threading the
state of the seeded random generator explicitly: `LoopExec S K sgm r T g i k acc res`
means that starting at draw index `i` of the generator stream `g`, with `k`
iterations remaining and accumulator value `acc`, the loop terminates with
final accumulator `res`. -/
inductive LoopExec (S K sgm r T : ℝ) (g : ℕ → ℝ) : ℕ → ℕ → ℝ → ℝ → Prop
  | done (i : ℕ) (acc : ℝ) : LoopExec S K sgm r T g i 0 acc acc
  | step (i k : ℕ) (acc res : ℝ) :
      LoopExec S K sgm r T g (i + 1) k (acc + clampedPayoff S K sgm r T (g i)) res →
      LoopExec S K sgm r T g i (k + 1) acc res

end

/-! ## Basic lemmas -/

/-- The bool-to-number trick `payoff*(payoff>0)` computes `max (ST - K) 0`. -/
theorem clampedPayoff_eq_max (S K sgm r T wi : ℝ) :
    clampedPayoff S K sgm r T wi = max (terminalValue S sgm r T wi - K) 0 := by
  unfold clampedPayoff
  by_cases h : terminalValue S sgm r T wi - K > 0
  · simp [h, max_eq_left (le_of_lt h)]
  · simp [h, max_eq_right (not_lt.1 h)]

theorem foldl_add_eq {α : Type} (f : α → ℝ) (l : List α) (a : ℝ) :
    l.foldl (fun acc x => acc + f x) a = a + (l.map f).sum := by
  induction l generalizing a with
  | nil => simp
  | cons x xs ih => simp [List.foldl_cons, ih, add_assoc]

theorem payoff_sim_eq_sum (S K sgm r T : ℝ) (w : ℕ → ℝ) (n : ℕ) :
    payoff_sim S K sgm r T w n =
      ∑ i ∈ Finset.range n, clampedPayoff S K sgm r T (w i) := by
  rw [payoff_sim, foldl_add_eq]
  norm_num
  induction n with
  | zero => simp
  | succ m ih => rw [List.range_succ, Finset.sum_range_succ, List.map_append, List.sum_append, ih]; simp

theorem vect_sum_eq_sum (S K sgm r T : ℝ) (w : ℕ → ℝ) (n : ℕ) :
    (((List.range n).map w).map (clampedPayoff S K sgm r T)).sum =
      ∑ i ∈ Finset.range n, clampedPayoff S K sgm r T (w i) := by
  rw [List.map_map]
  induction n with
  | zero => simp
  | succ m ih => rw [List.range_succ, Finset.sum_range_succ, List.map_append, List.sum_append, ih]; simp

/-- For `n ≥ 1` the looped and the vectorized functions return the same price. -/
theorem loop_eq_vect (S K sgm r T : ℝ) (n : ℤ) (w : ℕ → ℝ) (hn : 1 ≤ n) :
    mcBScall_loop S K sgm r T n w = mcBScall_vect S K sgm r T n w := by
  have hne : n ≠ 0 := by omega
  have hle : ¬ n ≤ 0 := by omega
  rw [mcBScall_loop, mcBScall_vect, if_neg hne, if_neg hle]
  simp only [payoff_sim_eq_sum, vect_sum_eq_sum, List.length_map, List.length_range]
  have : ((n.toNat : ℕ) : ℝ) = (n : ℝ) := by
    norm_cast
    omega
  rw [this, mul_div_assoc]

/-- Concatenating the chunks gives back the original list. -/
theorem splitChunks_join {α : Type} (c : ℕ) (l : List α) :
    (splitChunks c l).flatten = l := by
  induction c, l using splitChunks.induct with
  | case1 c => simp [splitChunks]
  | case2 l h => simp [splitChunks]
  | case3 c a l ih => rw [splitChunks]; simp only [List.flatten_cons, ih, List.take_append_drop]

/-- Accumulating per-chunk payoff sums over any chunking computes the sum of
all payoffs: chunking does not change the total. -/
theorem chunked_foldl_eq {α : Type} (f : α → ℝ) (c : ℕ) (l : List α) (a : ℝ) :
    (splitChunks c l).foldl (fun acc ch => acc + (ch.map f).sum) a = a + (l.map f).sum := by
  rw [foldl_add_eq (fun ch => (ch.map f).sum) (splitChunks c l) a]
  congr 1
  conv_rhs => rw [← splitChunks_join c l]
  rw [List.map_flatten, List.sum_flatten, List.map_map]
  rfl

/-- The chunk-accumulated payoff sum is independent of the chunk size and
equals the plain payoff sum of the loop. -/
theorem chunkedPayoffSum_eq (S K sgm r T : ℝ) (w : ℕ → ℝ) (n c : ℕ) :
    chunkedPayoffSum S K sgm r T w n c = payoff_sim S K sgm r T w n := by
  rw [chunkedPayoffSum, chunked_foldl_eq, payoff_sim, foldl_add_eq]
  norm_num

/-- The seeded loop execution is deterministic: from one starting state it
can only produce one final accumulator value. -/
theorem loopExec_det (S K sgm r T : ℝ) (g : ℕ → ℝ) :
    ∀ i k acc r1 r2, LoopExec S K sgm r T g i k acc r1 →
      LoopExec S K sgm r T g i k acc r2 → r1 = r2 := by
  intro i k acc r1 r2 h1 h2
  induction h1 generalizing r2 with
  | done i acc => cases h2; rfl
  | step i k acc res h ih =>
      cases h2 with
      | step _ _ _ _ h2 => exact ih _ h2

/-! ## Claim theorems -/

/-- C1: for every market parameter set (S>0, K>0, sigma≥0, T>0, any r), path
count n ≥ 1 and shock sequence, the price returned by `mcBScall_loop` (and
equally `mcBScall_vect`) equals `exp(-r*T)` times the mean over the paths of
`max(S*exp((r - 0.5*sigma^2)*T + sigma*sqrt(T)*w_i) - K, 0)`. -/
theorem price_is_discounted_mean_payoff (S K sgm r T : ℝ) (w : ℕ → ℝ) (n : ℤ)
    (hS : 0 < S) (hK : 0 < K) (hsgm : 0 ≤ sgm) (hT : 0 < T) (hn : 1 ≤ n) :
    mcBScall_loop S K sgm r T n w =
      some (Real.exp (-r * T) *
        ((∑ i ∈ Finset.range n.toNat,
            max (S * Real.exp ((r - 0.5 * sgm ^ 2) * T + sgm * Real.sqrt T * w i) - K) 0) /
          (n : ℝ))) ∧
    mcBScall_vect S K sgm r T n w =
      some (Real.exp (-r * T) *
        ((∑ i ∈ Finset.range n.toNat,
            max (S * Real.exp ((r - 0.5 * sgm ^ 2) * T + sgm * Real.sqrt T * w i) - K) 0) /
          (n : ℝ))) := by
  have hne : n ≠ 0 := by omega
  have hloop : mcBScall_loop S K sgm r T n w =
      some (Real.exp (-r * T) *
        ((∑ i ∈ Finset.range n.toNat,
            max (S * Real.exp ((r - 0.5 * sgm ^ 2) * T + sgm * Real.sqrt T * w i) - K) 0) /
          (n : ℝ))) := by
    rw [mcBScall_loop, if_neg hne, payoff_sim_eq_sum, mul_div_assoc]
    simp only [clampedPayoff_eq_max, terminalValue]
  exact ⟨hloop, by rw [← loop_eq_vect S K sgm r T n w hn]; exact hloop⟩

/-- C1 witness at S=1, K=1, sigma=0, r=0, T=1, n=1, zero shock. -/
theorem price_is_discounted_mean_payoff_witness :
    (0:ℝ) < 1 ∧ (1:ℤ) ≤ 1 ∧
    (mcBScall_loop 1 1 0 0 1 1 (fun _ => 0) =
      some (Real.exp (-0 * 1) *
        ((∑ i ∈ Finset.range (1:ℤ).toNat,
            max ((1:ℝ) * Real.exp ((0 - 0.5 * 0 ^ 2) * 1 + 0 * Real.sqrt 1 * 0) - 1) 0) /
          ((1:ℤ) : ℝ)))) ∧
    (mcBScall_vect 1 1 0 0 1 1 (fun _ => 0) =
      some (Real.exp (-0 * 1) *
        ((∑ i ∈ Finset.range (1:ℤ).toNat,
            max ((1:ℝ) * Real.exp ((0 - 0.5 * 0 ^ 2) * 1 + 0 * Real.sqrt 1 * 0) - 1) 0) /
          ((1:ℤ) : ℝ)))) :=
  ⟨by norm_num, le_refl 1,
    (price_is_discounted_mean_payoff 1 1 0 0 1 (fun _ => 0) 1 (by norm_num) (by norm_num)
      (le_refl 0) (by norm_num) (le_refl 1)).1,
    (price_is_discounted_mean_payoff 1 1 0 0 1 (fun _ => 0) 1 (by norm_num) (by norm_num)
      (le_refl 0) (by norm_num) (le_refl 1)).2⟩

/-- C2: for every fixed parameter set and shock sequence (n ≥ 1), the looped
and vectorized strategies return the same price, hence agree within relative
tolerance 1e-9, and the `@jit`-compiled variants match them exactly. -/
theorem strategies_agree_within_tolerance (S K sgm r T : ℝ) (w : ℕ → ℝ) (n : ℤ)
    (hn : 1 ≤ n) :
    mcBScall_loop S K sgm r T n w = mcBScall_vect S K sgm r T n w ∧
    mcBScall_loop_jit S K sgm r T n w = mcBScall_loop S K sgm r T n w ∧
    mcBScall_vect_jit S K sgm r T n w = mcBScall_vect S K sgm r T n w ∧
    |(mcBScall_loop S K sgm r T n w).getD 0 - (mcBScall_vect S K sgm r T n w).getD 0| ≤
      1e-9 * |(mcBScall_vect S K sgm r T n w).getD 0| := by
  refine ⟨loop_eq_vect S K sgm r T n w hn, rfl, rfl, ?_⟩
  rw [loop_eq_vect S K sgm r T n w hn, sub_self, abs_zero]
  positivity

/-- C2 witness at S=1, K=1, sigma=0, r=0, T=1, n=1, zero shock. -/
theorem strategies_agree_within_tolerance_witness :
    (1:ℤ) ≤ 1 ∧
    (mcBScall_loop 1 1 0 0 1 1 (fun _ => 0) = mcBScall_vect 1 1 0 0 1 1 (fun _ => 0) ∧
     mcBScall_loop_jit 1 1 0 0 1 1 (fun _ => 0) = mcBScall_loop 1 1 0 0 1 1 (fun _ => 0) ∧
     mcBScall_vect_jit 1 1 0 0 1 1 (fun _ => 0) = mcBScall_vect 1 1 0 0 1 1 (fun _ => 0) ∧
     |(mcBScall_loop 1 1 0 0 1 1 (fun _ => 0)).getD 0 -
         (mcBScall_vect 1 1 0 0 1 1 (fun _ => 0)).getD 0| ≤
       1e-9 * |(mcBScall_vect 1 1 0 0 1 1 (fun _ => 0)).getD 0|) :=
  ⟨le_refl 1, strategies_agree_within_tolerance 1 1 0 0 1 (fun _ => 0) 1 (le_refl 1)⟩

/-- C3: with sigma = 0 the price is the deterministic limit
`max(S - K*exp(-r*T), 0)`, for every shock sequence and every n ≥ 1 (the
per-path payoff does not depend on the shocks, so the variance is zero). -/
theorem sigma_zero_deterministic_price (S K r T : ℝ) (w : ℕ → ℝ) (n : ℤ)
    (hn : 1 ≤ n) :
    mcBScall_loop S K 0 r T n w = some (max (S - K * Real.exp (-r * T)) 0) ∧
    mcBScall_vect S K 0 r T n w = some (max (S - K * Real.exp (-r * T)) 0) := by
  have hne : n ≠ 0 := by omega
  have hc : ∀ wi : ℝ, clampedPayoff S K 0 r T wi = max (S * Real.exp (r * T) - K) 0 := by
    intro wi
    rw [clampedPayoff_eq_max, terminalValue]
    norm_num
  have hE : Real.exp (-r * T) * Real.exp (r * T) = 1 := by
    rw [← Real.exp_add]
    ring_nf
    exact Real.exp_zero
  have h1 : Real.exp (-r * T) * (S * Real.exp (r * T) - K) = S - K * Real.exp (-r * T) := by
    linear_combination S * hE
  have hn0 : ((n : ℝ)) ≠ 0 := by exact_mod_cast hne
  have hloop : mcBScall_loop S K 0 r T n w = some (max (S - K * Real.exp (-r * T)) 0) := by
    rw [mcBScall_loop, if_neg hne, payoff_sim_eq_sum]
    simp only [hc, Finset.sum_const, Finset.card_range, nsmul_eq_mul]
    have htn : ((n.toNat : ℕ) : ℝ) = (n : ℝ) := by
      norm_cast
      omega
    rw [htn]
    congr 1
    calc Real.exp (-r * T) * ((n : ℝ) * max (S * Real.exp (r * T) - K) 0) / (n : ℝ)
        = Real.exp (-r * T) * max (S * Real.exp (r * T) - K) 0 := by
          field_simp
          ring
      _ = max (Real.exp (-r * T) * (S * Real.exp (r * T) - K)) (Real.exp (-r * T) * 0) := by
          rw [mul_max_of_nonneg _ _ (Real.exp_pos (-r * T)).le]
      _ = max (S - K * Real.exp (-r * T)) 0 := by rw [h1, mul_zero]
  exact ⟨hloop, by rw [← loop_eq_vect S K 0 r T n w hn]; exact hloop⟩

/-- C3 witness at S=100, K=100, sigma=0, r=0, T=1, n=1, zero shock. -/
theorem sigma_zero_deterministic_price_witness :
    (1:ℤ) ≤ 1 ∧
    (mcBScall_loop 100 100 0 0 1 1 (fun _ => 0) =
       some (max (100 - 100 * Real.exp (-0 * 1)) 0) ∧
     mcBScall_vect 100 100 0 0 1 1 (fun _ => 0) =
       some (max (100 - 100 * Real.exp (-0 * 1)) 0)) :=
  ⟨le_refl 1, sigma_zero_deterministic_price 100 100 0 1 (fun _ => 0) 1 (le_refl 1)⟩

/-- C4 counterexample: called with K = -10 (and the notebook's other market
parameters), both functions return a price; no `InvalidParameterError` is
raised and no validation precedes the sampling. -/
theorem no_validation_for_negative_strike :
    mcBScall_loop 100 (-10) 0.45 0.02 1.5 1 (fun _ => 0) ≠ none ∧
    mcBScall_vect 100 (-10) 0.45 0.02 1.5 1 (fun _ => 0) ≠ none := by
  constructor
  · rw [mcBScall_loop, if_neg (by norm_num)]
    exact Option.some_ne_none _
  · rw [mcBScall_vect, if_neg (by norm_num)]
    exact Option.some_ne_none _

/-- C4 amended: the functions perform no parameter validation: with K = -10
(and any S, sigma, r, T) every run with n ≥ 1 draws its shocks and returns a
numeric price instead of raising an error. -/
theorem invalid_params_still_priced (S sgm r T : ℝ) (w : ℕ → ℝ) (n : ℤ)
    (hn : 1 ≤ n) :
    (mcBScall_loop S (-10) sgm r T n w).isSome = true ∧
    (mcBScall_vect S (-10) sgm r T n w).isSome = true := by
  have hne : n ≠ 0 := by omega
  have hle : ¬ n ≤ 0 := by omega
  constructor
  · rw [mcBScall_loop, if_neg hne]
    rfl
  · rw [mcBScall_vect, if_neg hle]
    rfl

/-- C4 witness at S=100, sigma=0.45, r=0.02, T=1.5, n=1, zero shock. -/
theorem invalid_params_still_priced_witness :
    (1:ℤ) ≤ 1 ∧
    ((mcBScall_loop 100 (-10) 0.45 0.02 1.5 1 (fun _ => 0)).isSome = true ∧
     (mcBScall_vect 100 (-10) 0.45 0.02 1.5 1 (fun _ => 0)).isSome = true) :=
  ⟨le_refl 1, invalid_params_still_priced 100 0.45 0.02 1.5 (fun _ => 0) 1 (le_refl 1)⟩

/-- C5: accumulating per-chunk payoff sums with chunk size c1 versus c2 gives
the same price estimate, and the c = 1 and c = n extremes coincide with the
one-path-at-a-time accumulation of `mcBScall_loop` and the whole-sequence
evaluation of `mcBScall_vect`. -/
theorem chunking_does_not_change_price (S K sgm r T : ℝ) (w : ℕ → ℝ) (n : ℤ)
    (c1 c2 : ℕ) (hn : 1 ≤ n) :
    chunkedPrice S K sgm r T w n c1 = chunkedPrice S K sgm r T w n c2 ∧
    mcBScall_loop S K sgm r T n w = some (chunkedPrice S K sgm r T w n 1) ∧
    mcBScall_vect S K sgm r T n w = some (chunkedPrice S K sgm r T w n n.toNat) := by
  have hne : n ≠ 0 := by omega
  refine ⟨?_, ?_, ?_⟩
  · rw [chunkedPrice, chunkedPrice, chunkedPayoffSum_eq, chunkedPayoffSum_eq]
  · rw [mcBScall_loop, if_neg hne, chunkedPrice, chunkedPayoffSum_eq]
  · rw [← loop_eq_vect S K sgm r T n w hn, mcBScall_loop, if_neg hne, chunkedPrice,
      chunkedPayoffSum_eq]

/-- C5 witness: chunk sizes 2 and 3 over n = 5 paths, zero shocks. -/
theorem chunking_does_not_change_price_witness :
    (1:ℤ) ≤ 5 ∧
    (chunkedPrice 1 1 0 0 1 (fun _ => 0) 5 2 = chunkedPrice 1 1 0 0 1 (fun _ => 0) 5 3 ∧
     mcBScall_loop 1 1 0 0 1 5 (fun _ => 0) = some (chunkedPrice 1 1 0 0 1 (fun _ => 0) 5 1) ∧
     mcBScall_vect 1 1 0 0 1 5 (fun _ => 0) =
       some (chunkedPrice 1 1 0 0 1 (fun _ => 0) 5 (5:ℤ).toNat)) :=
  ⟨by norm_num, chunking_does_not_change_price 1 1 0 0 1 (fun _ => 0) 5 2 3 (by norm_num)⟩

/-- C6: two executions of the simulation loop with identical parameters and
the same seed (the same generator stream `g`, started at the same index with
the same iteration count and accumulator) produce identical results. -/
theorem same_seed_same_result (S K sgm r T : ℝ) (g : ℕ → ℝ) (n : ℕ) (r1 r2 : ℝ)
    (h1 : LoopExec S K sgm r T g 0 n 0 r1) (h2 : LoopExec S K sgm r T g 0 n 0 r2) :
    r1 = r2 :=
  loopExec_det S K sgm r T g 0 n 0 r1 r2 h1 h2

/-- C6 witness: two one-iteration executions of the loop from the zero seed
stream produce the same accumulated payoff. -/
theorem same_seed_same_result_witness :
    (0:ℝ) + clampedPayoff 1 1 0 0 1 ((fun _ => (0:ℝ)) 0) =
      0 + clampedPayoff 1 1 0 0 1 ((fun _ => (0:ℝ)) 0) :=
  same_seed_same_result 1 1 0 0 1 (fun _ => 0) 1 _ _
    (LoopExec.step 0 0 0 _ (LoopExec.done 1 _)) (LoopExec.step 0 0 0 _ (LoopExec.done 1 _))

/-- C7 counterexample: at parameters whose exponent is astronomically large
(r = 10^6, T = 1, where double-precision `exp` overflows to a non-finite
value), the run still returns a result: no `NumericInstabilityError` is
raised and nothing is discarded. -/
theorem no_numeric_abort :
    mcBScall_loop 1 0 0 1000000 1 1 (fun _ => 0) ≠ none ∧
    mcBScall_vect 1 0 0 1000000 1 1 (fun _ => 0) ≠ none := by
  constructor
  · rw [mcBScall_loop, if_neg (by norm_num)]
    exact Option.some_ne_none _
  · rw [mcBScall_vect, if_neg (by norm_num)]
    exact Option.some_ne_none _

/-- C7 amended: the functions contain no numeric-error handling at all: every
run with n ≥ 1 returns a price unconditionally (a non-finite intermediate
value would propagate into the returned price rather than aborting the run,
and no chunk index is ever reported). -/
theorem run_never_aborts (S K sgm r T : ℝ) (w : ℕ → ℝ) (n : ℤ) (hn : 1 ≤ n) :
    (mcBScall_loop S K sgm r T n w).isSome = true ∧
    mcBScall_vect S K sgm r T n w = mcBScall_loop S K sgm r T n w := by
  have hne : n ≠ 0 := by omega
  refine ⟨?_, (loop_eq_vect S K sgm r T n w hn).symm⟩
  rw [mcBScall_loop, if_neg hne]
  rfl

/-- C7 witness at the overflowing parameter set of the counterexample. -/
theorem run_never_aborts_witness :
    (1:ℤ) ≤ 1 ∧
    ((mcBScall_loop 1 0 0 1000000 1 1 (fun _ => 0)).isSome = true ∧
     mcBScall_vect 1 0 0 1000000 1 1 (fun _ => 0) =
       mcBScall_loop 1 0 0 1000000 1 1 (fun _ => 0)) :=
  ⟨le_refl 1, run_never_aborts 1 0 0 1000000 1 (fun _ => 0) 1 (le_refl 1)⟩

/-- C8: for every valid parameter set, n ≥ 1 and shock sequence, both
functions return a price, and that price is non-negative: each per-path
payoff is clamped below by zero, so the payoff sum is non-negative, and the
discount factor `exp(-r*T)` and the divisor `n` are positive. -/
theorem price_nonneg (S K sgm r T : ℝ) (w : ℕ → ℝ) (n : ℤ)
    (hS : 0 < S) (hK : 0 < K) (hT : 0 < T) (hsgm : 0 ≤ sgm) (hn : 1 ≤ n) :
    (mcBScall_loop S K sgm r T n w).isSome = true ∧
    mcBScall_vect S K sgm r T n w = mcBScall_loop S K sgm r T n w ∧
    0 ≤ (mcBScall_loop S K sgm r T n w).getD 0 ∧
    0 ≤ (mcBScall_vect S K sgm r T n w).getD 0 := by
  have hne : n ≠ 0 := by omega
  have hsum : 0 ≤ payoff_sim S K sgm r T w n.toNat := by
    rw [payoff_sim_eq_sum]
    refine Finset.sum_nonneg fun i _ => ?_
    rw [clampedPayoff_eq_max]
    exact le_max_right _ _
  have hnpos : (0 : ℝ) < (n : ℝ) := by exact_mod_cast (by omega : (0 : ℤ) < n)
  have hval : 0 ≤ (mcBScall_loop S K sgm r T n w).getD 0 := by
    rw [mcBScall_loop, if_neg hne, Option.getD_some]
    exact div_nonneg (mul_nonneg (Real.exp_pos _).le hsum) hnpos.le
  have hvl := loop_eq_vect S K sgm r T n w hn
  refine ⟨?_, hvl.symm, hval, ?_⟩
  · rw [mcBScall_loop, if_neg hne]
    rfl
  · rw [← hvl]
    exact hval

/-- C8 witness at S=1, K=1, sigma=0, r=0, T=1, n=1, zero shock. -/
theorem price_nonneg_witness :
    (0:ℝ) < 1 ∧
    ((mcBScall_loop 1 1 0 0 1 1 (fun _ => 0)).isSome = true ∧
     mcBScall_vect 1 1 0 0 1 1 (fun _ => 0) = mcBScall_loop 1 1 0 0 1 1 (fun _ => 0) ∧
     0 ≤ (mcBScall_loop 1 1 0 0 1 1 (fun _ => 0)).getD 0 ∧
     0 ≤ (mcBScall_vect 1 1 0 0 1 1 (fun _ => 0)).getD 0) :=
  ⟨by norm_num,
    price_nonneg 1 1 0 0 1 (fun _ => 0) 1 (by norm_num) (by norm_num) (by norm_num)
      (le_refl 0) (le_refl 1)⟩

/-- C9: for fixed S, sigma, r, T, shock sequence and n ≥ 1, the price is
non-increasing in the strike: K1 ≤ K2 gives an estimate at K2 that is at most
the estimate at K1, for the looped and the vectorized function alike. -/
theorem price_antitone_in_strike (S sgm r T K1 K2 : ℝ) (w : ℕ → ℝ) (n : ℤ)
    (hK : K1 ≤ K2) (hn : 1 ≤ n) :
    (mcBScall_loop S K1 sgm r T n w).isSome = true ∧
    (mcBScall_loop S K2 sgm r T n w).isSome = true ∧
    (mcBScall_loop S K2 sgm r T n w).getD 0 ≤ (mcBScall_loop S K1 sgm r T n w).getD 0 ∧
    (mcBScall_vect S K2 sgm r T n w).getD 0 ≤ (mcBScall_vect S K1 sgm r T n w).getD 0 := by
  have hne : n ≠ 0 := by omega
  have hnpos : (0 : ℝ) < (n : ℝ) := by exact_mod_cast (by omega : (0 : ℤ) < n)
  have hsum : payoff_sim S K2 sgm r T w n.toNat ≤ payoff_sim S K1 sgm r T w n.toNat := by
    rw [payoff_sim_eq_sum, payoff_sim_eq_sum]
    refine Finset.sum_le_sum fun i _ => ?_
    rw [clampedPayoff_eq_max, clampedPayoff_eq_max]
    exact max_le_max (by linarith) (le_refl 0)
  have hmain : (mcBScall_loop S K2 sgm r T n w).getD 0 ≤
      (mcBScall_loop S K1 sgm r T n w).getD 0 := by
    rw [mcBScall_loop, mcBScall_loop, if_neg hne, if_neg hne, Option.getD_some,
      Option.getD_some]
    gcongr
  refine ⟨by rw [mcBScall_loop, if_neg hne]; rfl, by rw [mcBScall_loop, if_neg hne]; rfl,
    hmain, ?_⟩
  rw [← loop_eq_vect S K1 sgm r T n w hn, ← loop_eq_vect S K2 sgm r T n w hn]
  exact hmain

/-- C9 witness at S=1, sigma=0, r=0, T=1, strikes 1 ≤ 2, n=1, zero shock. -/
theorem price_antitone_in_strike_witness :
    (1:ℝ) ≤ 2 ∧
    ((mcBScall_loop 1 1 0 0 1 1 (fun _ => 0)).isSome = true ∧
     (mcBScall_loop 1 2 0 0 1 1 (fun _ => 0)).isSome = true ∧
     (mcBScall_loop 1 2 0 0 1 1 (fun _ => 0)).getD 0 ≤
       (mcBScall_loop 1 1 0 0 1 1 (fun _ => 0)).getD 0 ∧
     (mcBScall_vect 1 2 0 0 1 1 (fun _ => 0)).getD 0 ≤
       (mcBScall_vect 1 1 0 0 1 1 (fun _ => 0)).getD 0) :=
  ⟨by norm_num,
    price_antitone_in_strike 1 0 0 1 1 2 (fun _ => 0) 1 (by norm_num) (le_refl 1)⟩

/-- C10: for n ≤ 0 the loop body never runs (no draw is sampled) and the
accumulated payoff sum is 0; at n = 0 the final division by n yields no price
(the guard n ≠ 0 fails), and for n < 0 the function returns 0 without raising
any validation error. -/
theorem nonpositive_n_behavior (S K sgm r T : ℝ) (w : ℕ → ℝ) (n : ℤ)
    (hn : n ≤ 0) :
    payoff_sim S K sgm r T w n.toNat = 0 ∧
    (n = 0 → mcBScall_loop S K sgm r T n w = none) ∧
    (n < 0 → mcBScall_loop S K sgm r T n w = some 0) := by
  have htn : n.toNat = 0 := by omega
  have hsum : payoff_sim S K sgm r T w n.toNat = 0 := by
    rw [htn, payoff_sim]
    norm_num
  refine ⟨hsum, fun h => by rw [mcBScall_loop, if_pos h], fun h => ?_⟩
  rw [mcBScall_loop, if_neg (by omega), hsum]
  norm_num

/-- C10 witness at n = 0 (no price) and n = -1 (price 0, no error). -/
theorem nonpositive_n_behavior_witness :
    (mcBScall_loop 1 1 0 0 1 0 (fun _ => 0) = none) ∧
    (mcBScall_loop 1 1 0 0 1 (-1) (fun _ => 0) = some 0) :=
  ⟨(nonpositive_n_behavior 1 1 0 0 1 (fun _ => 0) 0 (le_refl 0)).2.1 rfl,
   (nonpositive_n_behavior 1 1 0 0 1 (fun _ => 0) (-1) (by norm_num)).2.2 (by norm_num)⟩

end Cookbook
